import Mathlib

/-! # broadsky: bridge from a repo event stream to a NATS subject

A shallow embedding of `cmd/broadsky/main.go` (and of its older sibling
`cmd/broadsky.go`), followed by theorems about the embedded code.

Conventions of the embedding:

* a Go `string` is a Lean `String`; the library functions that the program calls
  on strings (`strings.Contains`, `strings.Split`, the two regular expressions)
  are modelled on the underlying character sequence;
* a Go `int` counter is an unbounded `Int` (a counter would need `2^63`
  increments to wrap);
* a Go `error` result is an `Option GoError` (`none` is `nil`), a `(value, error)`
  result is an `Except GoError value`;
* a Go `map[string]int` is an association list whose keys are pairwise distinct
  (`GoMap.WF`); the order in which `range` visits it is an argument of the code
  that iterates;
* the serializers (`json.Marshal`, `cbor.Marshal`, `json.Unmarshal`) and the
  NATS client are libraries outside the repository: they are parameters
  (`Libs`) of the embedded code.
-/

namespace Broadsky

/-! ## Go library models: strings -/

/-- Model of `strings.Contains(s, substr)` on character sequences: `substr`
occurs at the current position or somewhere later. -/
def containsChars (sub : List Char) : List Char → Bool
  | [] => sub.isPrefixOf []
  | c :: cs => sub.isPrefixOf (c :: cs) || containsChars sub cs

/-- Model of `strings.Contains(s, substr)`. -/
def stringsContains (s substr : String) : Bool :=
  containsChars substr.data s.data

/-- Model of `strings.Split(s, sep)` for a separator `sep` of one character, on
character sequences: the pieces of `s` between the occurrences of `sep`. The
result is never empty. -/
def splitChars (sep : Char) : List Char → List (List Char)
  | [] => [[]]
  | c :: cs =>
    if c = sep then [] :: splitChars sep cs
    else
      match splitChars sep cs with
      | [] => [[c]]
      | w :: ws => (c :: w) :: ws

/-- Model of `strings.Split(s, sep)` for a separator of one character. -/
def stringsSplit (s : String) (sep : Char) : List String :=
  (splitChars sep s.data).map String.mk

/-! ## Go library models: regular expressions

The program uses two regular expressions, both anchored at the start of the
text by `^`, and both flat: every quantifier applies to a single character
class. `ReNode` is the syntax of such expressions after the leading `^`;
`matchHere` is a backtracking matcher with the leftmost-first (greedy)
preference of Go's `regexp` package. -/

/-- One item of a flat regular expression. -/
inductive ReNode where
  /-- Exactly one character of the class. -/
  | cls (p : Char → Bool)
  /-- Operator `x?`: one character of the class if possible, else none. -/
  | opt (p : Char → Bool)
  /-- Operator `x+`: one or more characters of the class, as many as possible. -/
  | plus (p : Char → Bool)
  /-- Opening bracket of a capturing group. -/
  | gopen
  /-- Closing bracket of a capturing group. -/
  | gclose

/-- Matcher state: the texts at which the still open groups started, and the
texts captured by the closed groups, in the order the groups closed. -/
structure ReState where
  opens : List (List Char)
  caps : List (List Char)

/-- Greedy `x*` followed by the continuation `k`: consume as many characters of
the class as possible, giving characters back one at a time while `k` fails. -/
def greedyStar {R : Type} (p : Char → Bool) (k : List Char → Option R) :
    List Char → Option R
  | [] => k []
  | c :: cs =>
    if p c then
      match greedyStar p k cs with
      | some r => some r
      | none => k (c :: cs)
    else k (c :: cs)

/-- Greedy `x+` followed by the continuation `k`. -/
def greedyPlus {R : Type} (p : Char → Bool) (k : List Char → Option R) :
    List Char → Option R
  | [] => none
  | c :: cs => if p c then greedyStar p k cs else none

/-- Match the items of a flat regular expression at the start of the text `s`;
the result is the final state and the text left after the match. -/
def matchHere : List ReNode → ReState → List Char → Option (ReState × List Char)
  | [], st, s => some (st, s)
  | .cls p :: rest, st, s =>
    match s with
    | [] => none
    | c :: cs => if p c then matchHere rest st cs else none
  | .opt p :: rest, st, s =>
    match s with
    | [] => matchHere rest st []
    | c :: cs =>
      if p c then
        match matchHere rest st cs with
        | some r => some r
        | none => matchHere rest st (c :: cs)
      else matchHere rest st (c :: cs)
  | .plus p :: rest, st, s => greedyPlus p (fun t => matchHere rest st t) s
  | .gopen :: rest, st, s => matchHere rest { st with opens := s :: st.opens } s
  | .gclose :: rest, st, s =>
    match st.opens with
    | [] => none
    | s0 :: os =>
      matchHere rest { opens := os, caps := st.caps ++ [s0.take (s0.length - s.length)] } s

/-- Model of `re.Match([]byte(s))` for the expression `^` followed by `re`. -/
def reMatch (re : List ReNode) (s : String) : Bool :=
  (matchHere re ⟨[], []⟩ s.data).isSome

/-- Model of `re.FindStringSubmatch(s)` for the expression `^` followed by
`re`: `none` is the `nil` slice, otherwise the whole match followed by the texts
of the capturing groups. -/
def reFindStringSubmatch (re : List ReNode) (s : String) : Option (List String) :=
  match matchHere re ⟨[], []⟩ s.data with
  | none => none
  | some (st, left) =>
    some (String.mk (s.data.take (s.data.length - left.length)) :: st.caps.map String.mk)

/-- Character class of one literal character. -/
def lit (c : Char) : ReNode := .cls (fun x => x == c)

/-- Character class `.` of Go's `regexp`: any character but a line feed. -/
def dot : ReNode := .cls (fun x => x != '\n')

/-- The expression `^wss?:\/\/` of the address normalization. -/
def wsSchemeRe : List ReNode :=
  [lit 'w', lit 's', .opt (fun x => x == 's'), lit ':', lit '/', lit '/']

/-- The last group `([^\/]+)` of the expression of the metrics handler. -/
def metricKeyTail : List ReNode :=
  [.gopen, .plus (fun x => x != '/'), .gclose]

/-- The part `:app.bsky.([^\/]+)` of the expression of the metrics handler. -/
def metricKeyRest : List ReNode :=
  [lit ':', lit 'a', lit 'p', lit 'p', dot, lit 'b', lit 's', lit 'k', lit 'y', dot] ++
    metricKeyTail

/-- The expression `^([^:]+):app.bsky.([^\/]+)` of the metrics handler. -/
def metricKeyRe : List ReNode :=
  [.gopen, .plus (fun x => x != ':'), .gclose] ++ metricKeyRest

/-! ## Address normalization (`bridge nats` action, first lines) -/

/-- Go `error` values are modelled by their message. -/
abbrev GoError := String

/-- The address normalization at the start of the `nats` action: `first` is
`cctx.Args().First()`, `cursor` is `cctx.String("cursor")`. -/
def normalizeRepo (first cursor : String) : Except GoError String :=
  if first = "" then
    .error "Please provide repo source, for example: wss://bsky.social"
  else
    let repo1 :=
      if !stringsContains first "subscribeRepos" then
        first ++ "/xrpc/com.atproto.sync.subscribeRepos"
      else first
    let repo2 := if !reMatch wsSchemeRe repo1 then "wss://" ++ repo1 else repo1
    let repo3 := if cursor ≠ "" then repo2 ++ "?cursor=" ++ cursor else repo2
    .ok repo3

/-- Step (1) of the normalization as the specification words it. -/
def specAppendPath (a : String) : String :=
  if "subscribeRepos".data <:+: a.data then a
  else a ++ "/xrpc/com.atproto.sync.subscribeRepos"

/-- Step (2) of the normalization as the specification words it. -/
def specPrependScheme (a : String) : String :=
  if "ws://".data <+: a.data ∨ "wss://".data <+: a.data then a else "wss://" ++ a

/-- Step (3) of the normalization as the specification words it. -/
def specAppendCursor (a c : String) : String :=
  if c = "" then a else a ++ ("?cursor=" ++ c)

/-- The normalization as the specification words it. -/
def specNormalize (a c : String) : String :=
  specAppendCursor (specPrependScheme (specAppendPath a)) c

/-! ## Codec (`encode`) -/

/-- Go `[]byte`. -/
abbrev Bytes := List UInt8

/-- The function `encode`; the two serializers it calls are library functions
(`json.Marshal`, `cbor.Marshal`) and are arguments here. -/
def encode {α : Type} (jsonMarshal cborMarshal : α → Except GoError Bytes)
    (codec : String) (evt : α) : Except GoError Bytes :=
  if codec = "json" then
    match jsonMarshal evt with
    | .error err => .error err
    | .ok b => .ok b
  else
    match cborMarshal evt with
    | .error err => .error err
    | .ok b => .ok b

/-! ## Data model -/

/-- Modelled from the spec: the record type of one operation is declared in the
indigo library (`SyncSubscribeRepos_RepoOp`); the program reads its `Action`
and its `Path`. -/
structure RepoOp where
  action : String
  path : String

/-- Modelled from the spec: the record type of a commit event is declared in the
indigo library (`SyncSubscribeRepos_Commit`); the program reads its `Ops` and
the length of its `Blocks`. -/
structure Commit where
  repo : String
  seq : Int
  ops : List RepoOp
  blocks : Bytes

/-- Modelled from the spec: the record type of a handle event is declared in the
indigo library (`SyncSubscribeRepos_Handle`). -/
structure Handle where
  did : String
  handle : String

/-- Modelled from the spec: the record type of an info event is declared in the
indigo library (`SyncSubscribeRepos_Info`). -/
structure Info where
  name : String
  message : String

/-- The three kinds of upstream events that have a callback. -/
inductive StreamEvent where
  | commit (c : Commit)
  | handle (h : Handle)
  | info (i : Info)

/-- The three actions of the data model. -/
def actions : List String := ["create", "update", "delete"]

/-! ## Go maps -/

/-- A Go `map[string]β` as an association list. -/
abbrev GoMap (β : Type) := List (String × β)

namespace GoMap

/-- Keys of the map are pairwise distinct. -/
def WF {β : Type} (m : GoMap β) : Prop := (m.map Prod.fst).Nodup

/-- Read with presence flag: `v, ok := m[k]`. -/
def get? {β : Type} : GoMap β → String → Option β
  | [], _ => none
  | (k1, v1) :: rest, k => if k1 = k then some v1 else get? rest k

/-- Read `m[k]`: the zero value `zero` of the element type when `k` is absent. -/
def getD {β : Type} (m : GoMap β) (k : String) (zero : β) : β :=
  (m.get? k).getD zero

/-- Write `m[k] = v`. -/
def set {β : Type} : GoMap β → String → β → GoMap β
  | [], k, v => [(k, v)]
  | (k1, v1) :: rest, k, v =>
    if k1 = k then (k, v) :: rest else (k1, v1) :: set rest k v

end GoMap

/-! ## Metrics -/

/-- The struct `metricsData`. -/
structure MetricsData where
  total : Int
  counts : GoMap Int
  mcounts : GoMap Int

/-- The value `metricsData{0, make(map[string]int), make(map[string]int)}`. -/
def initStats : MetricsData := ⟨0, [], []⟩

/-- The key `op.Action + ":" + strings.Split(op.Path, "/")[0]`. The slice that
`strings.Split` returns is never empty, so the index `[0]` is always in range. -/
def opKey (op : RepoOp) : String :=
  op.action ++ ":" ++ (stringsSplit op.path '/').headD ""

/-- Body of the loop over `evt.Ops` in `RepoCommit`. -/
def recordOp (stats : MetricsData) (op : RepoOp) : MetricsData :=
  let opkey := opKey op
  let total := stats.total + 1
  let counts1 :=
    if (stats.counts.get? opkey).isNone then stats.counts.set opkey 0 else stats.counts
  let counts2 := counts1.set opkey (counts1.getD opkey 0 + 1)
  { stats with total := total, counts := counts2 }

/-- The loop `for _, op := range evt.Ops`. -/
def recordOps (stats : MetricsData) (ops : List RepoOp) : MetricsData :=
  ops.foldl recordOp stats

/-! ## Libraries and session -/

/-- One call of `nc.Publish`, with what the call returned. -/
structure PublishCall where
  subject : String
  data : Bytes
  result : Option GoError

/-- The library functions the callbacks call. `V` is the type of the values of a
decoded JSON object (`any`). `natsPublish` gives the result of a `Publish` call
from the calls made so far, the subject and the payload. -/
structure Libs (V : Type) where
  jsonMarshalCommit : Commit → Except GoError Bytes
  cborMarshalCommit : Commit → Except GoError Bytes
  jsonMarshalHandle : Handle → Except GoError Bytes
  jsonMarshalInfo : Info → Except GoError Bytes
  jsonUnmarshal : Bytes → Except GoError (GoMap V)
  jsonMarshalMap : GoMap V → Except GoError Bytes
  anyString : String → V
  natsPublish : List PublishCall → String → Bytes → Option GoError

/-- The variables of the action that the callbacks close over and never
change. -/
structure Session where
  subject : String
  codec : String
  debug : Bool

/-- What the callbacks change: the calls made on the NATS connection (oldest
first), the metrics, and the lines printed on standard output. -/
structure World where
  published : List PublishCall
  stats : MetricsData
  stdout : List Bytes

/-- The world when the stream starts. -/
def initWorld : World := ⟨[], initStats, []⟩

/-! ## Stream callbacks -/

/-- The `if debug` block of `RepoCommit`: the line it prints, or the error it
returns. -/
def debugCommit {V : Type} (L : Libs V) (evt : Commit) : Except GoError Bytes :=
  match L.jsonMarshalCommit evt with
  | .error err => .error err
  | .ok b =>
    match L.jsonUnmarshal b with
    | .error err => .error err
    | .ok out =>
      let out1 := GoMap.set out "blocks"
        (L.anyString ("[" ++ toString evt.blocks.length ++ " bytes]"))
      match L.jsonMarshalMap out1 with
      | .error err => .error err
      | .ok b1 => .ok b1

/-- The callback `RepoCommit` of `cmd/broadsky/main.go`: the returned error and
the world after the call. The result of `nc.Publish` is recorded in the call
log and is not looked at. -/
def repoCommit {V : Type} (L : Libs V) (S : Session) (evt : Commit) (w : World) :
    Option GoError × World :=
  match encode L.jsonMarshalCommit L.cborMarshalCommit S.codec evt with
  | .error err => (some err, w)
  | .ok b =>
    let subj := S.subject ++ ".commit"
    let w1 := { w with published := w.published ++ [PublishCall.mk subj b (L.natsPublish w.published subj b)] }
    let w2 := { w1 with stats := recordOps w1.stats evt.ops }
    if S.debug then
      match debugCommit L evt with
      | .error err => (some err, w2)
      | .ok line => (none, { w2 with stdout := w2.stdout ++ [line] })
    else (none, w2)

/-- The callback `RepoCommit` of the older `cmd/broadsky.go`, which keeps no
metrics. -/
def repoCommitV0 {V : Type} (L : Libs V) (S : Session) (evt : Commit) (w : World) :
    Option GoError × World :=
  match encode L.jsonMarshalCommit L.cborMarshalCommit S.codec evt with
  | .error err => (some err, w)
  | .ok b =>
    let subj := S.subject ++ ".commit"
    let w1 := { w with published := w.published ++ [PublishCall.mk subj b (L.natsPublish w.published subj b)] }
    if S.debug then
      match debugCommit L evt with
      | .error err => (some err, w1)
      | .ok line => (none, { w1 with stdout := w1.stdout ++ [line] })
    else (none, w1)

/-- The callback `RepoHandle`. -/
def repoHandle {V : Type} (L : Libs V) (S : Session) (h : Handle) (w : World) :
    Option GoError × World :=
  match L.jsonMarshalHandle h with
  | .error err => (some err, w)
  | .ok b => if S.debug then (none, { w with stdout := w.stdout ++ [b] }) else (none, w)

/-- The callback `RepoInfo`. -/
def repoInfo {V : Type} (L : Libs V) (_S : Session) (i : Info) (w : World) :
    Option GoError × World :=
  match L.jsonMarshalInfo i with
  | .error err => (some err, w)
  | .ok b => (none, { w with stdout := w.stdout ++ [b] })

/-- The method `rsc.EventHandler` of the indigo library: the callback of the
kind of the event. -/
def eventHandler {V : Type} (L : Libs V) (S : Session) (e : StreamEvent) (w : World) :
    Option GoError × World :=
  match e with
  | .commit c => repoCommit L S c w
  | .handle h => repoHandle L S h w
  | .info i => repoInfo L S i w

/-- Model of `events.HandleRepoStream` run with `events.SequentialScheduler`
(indigo library) on a finite sequence of decoded events, as the specification
describes that scheduler: the events are handed to the callbacks one after
another in the order received, and the first callback that returns an error
halts the stream. The result is that error (`none` when the events ran out
first) and the world at that point. -/
def dispatch {V : Type} (L : Libs V) (S : Session) :
    List StreamEvent → World → Option GoError × World
  | [], w => (none, w)
  | e :: es, w =>
    match eventHandler L S e w with
    | (some err, w1) => (some err, w1)
    | (none, w1) => dispatch L S es w1

/-! ## Metrics endpoint (`/_metrics` handler) -/

/-- First line of the exposition:
`Sprintf("broadsky_bridge_events_total{server=\"nil\",repo=\"%v\"} %v\n", repo, total)`. -/
def totalLine (repo : String) (total : Int) : String :=
  "broadsky_bridge_events_total\x7bserver=\"nil\",repo=\"" ++ repo ++ "\"\x7d " ++
    toString total ++ "\n"

/-- Line of one counter: `Sprintf("broadsky_bridge_events{server=\"nil\",
repo=\"%v\",action=\"%v\",type=\"%v\"} %v\n", repo, action, type, n)`. -/
def eventLine (repo action type : String) (n : Int) : String :=
  "broadsky_bridge_events\x7bserver=\"nil\",repo=\"" ++ repo ++ "\",action=\"" ++ action ++
    "\",type=\"" ++ type ++ "\"\x7d " ++ toString n ++ "\n"

/-- Body of the loop over `stats.counts` in the handler: the line appended for
the entry `key, n`, or `none` when the loop continues without appending. -/
def metricLine (repo key : String) (n : Int) : Option String :=
  match reFindStringSubmatch metricKeyRe key with
  | none => none
  | some m => some (eventLine repo (m.getD 1 "") (m.getD 2 "") n)

/-- The text `m` the handler writes. `order` is the order in which
`for key, n := range stats.counts` visits the entries of the map. -/
def metricsBody (repo : String) (stats : MetricsData) (order : List (String × Int)) : String :=
  order.foldl
    (fun m e =>
      match metricLine repo e.1 e.2 with
      | none => m
      | some line => m ++ line)
    (totalLine repo stats.total)

/-- The handler: status code and body of the response for a request path. -/
def metricsHandler (path repo : String) (stats : MetricsData) (order : List (String × Int)) :
    Nat × String :=
  if path ≠ "/_metrics" then (404, "Not Found\n") else (200, metricsBody repo stats order)

/-! ## Cancellation watcher

The goroutine `go func() { <-metricsQuit; <-ctx.Done(); _ = con.Close() }()`
of `main.go`, and the goroutine `go func() { <-ctx.Done(); _ = con.Close() }()`
of the older `broadsky.go`, as state machines. -/

/-- The statement the watcher goroutine is at. -/
inductive WatcherPc where
  | recvMetricsQuit
  | recvCtxDone
  | closeCon
  | finished
deriving DecidableEq

/-- What the watcher reads and writes. `metricsQuit` is `none` for the nil
channel that `var metricsQuit chan os.Signal` declares, and `some n` for the
channel made by `make(chan os.Signal, 1)` holding `n` signals; `ctxDone` says
whether the channel `ctx.Done()` is closed; `conClosed` whether `con.Close()`
was called. -/
structure Proc where
  metricsQuit : Option Nat
  ctxDone : Bool
  conClosed : Bool
  pc : WatcherPc
deriving DecidableEq

/-- The process when the watcher of `main.go` is started: the channel
`metricsQuit` was made only `if metrics`. -/
def startWatcher (metrics : Bool) : Proc :=
  ⟨if metrics then some 0 else none, false, false, .recvMetricsQuit⟩

/-- The process when the watcher of the older `broadsky.go` is started. -/
def startWatcherV0 : Proc := ⟨none, false, false, .recvCtxDone⟩

/-- Delivery of SIGINT: the context made by `signal.NotifyContext` is done, and
`signal.Notify` puts the signal into `metricsQuit` when that channel exists and
has room (capacity 1). -/
def deliverSigint (p : Proc) : Proc :=
  { p with ctxDone := true, metricsQuit := p.metricsQuit.map (fun n => min (n + 1) 1) }

/-- One scheduling of the watcher goroutine: it runs its current statement, or
stays where it is when that statement blocks. A receive from a nil channel
blocks forever. -/
def watcherStep (p : Proc) : Proc :=
  match p.pc with
  | .recvMetricsQuit =>
    match p.metricsQuit with
    | none => p
    | some 0 => p
    | some (n + 1) => { p with metricsQuit := some n, pc := .recvCtxDone }
  | .recvCtxDone => if p.ctxDone then { p with pc := .closeCon } else p
  | .closeCon => { p with conClosed := true, pc := .finished }
  | .finished => p

/-- The watcher scheduled `n` times. -/
def watcherRun : Nat → Proc → Proc
  | 0, p => p
  | n + 1, p => watcherRun n (watcherStep p)

/-! ## Specification-side definitions -/

/-- The first `/`-separated segment of a path, in the words of the
specification: the text before the first `/`. -/
def firstSegment (path : String) : String :=
  String.mk (path.data.takeWhile (fun x => x != '/'))

/-- Number of operations, across the commits `cs`, whose action is `a` and whose
path has first segment `c`. -/
def countOps (a c : String) (cs : List Commit) : Nat :=
  (cs.map (fun evt =>
    evt.ops.countP (fun op => decide (op.action = a ∧ firstSegment op.path = c)))).sum

/-- Number of operations across the commits `cs`. -/
def totalOps (cs : List Commit) : Nat :=
  (cs.map (fun evt => evt.ops.length)).sum

/-- The text of a key before its first `:`. -/
def keyAction (key : String) : String :=
  String.mk (key.data.takeWhile (fun x => x != ':'))

/-- The text of a key after its first `:`. -/
def keyCollection (key : String) : List Char :=
  (key.data.dropWhile (fun x => x != ':')).drop 1

/-- The type reported for a key: the text of its collection after the nine
characters of `app.bsky.`, up to the first `/`. -/
def keyType (key : String) : String :=
  String.mk (((keyCollection key).drop 9).takeWhile (fun x => x != '/'))

/-- A key matches the pattern `^([^:]+):app.bsky.([^\/]+)`: a non-empty text
without `:`, then `:`, then `app`, any character but a line feed, `bsky`, any
character but a line feed, then at least one character other than `/`. -/
def keyMatches (key : String) : Bool :=
  keyAction key != "" &&
  (key.data.dropWhile (fun x => x != ':')).take 1 == [':'] &&
  (match keyCollection key with
   | c1 :: c2 :: c3 :: x :: c5 :: c6 :: c7 :: c8 :: y :: t :: _ =>
     c1 == 'a' && c2 == 'p' && c3 == 'p' && x != '\n' &&
     c5 == 'b' && c6 == 's' && c7 == 'k' && c8 == 'y' && y != '\n' && t != '/'
   | _ => false)

/-- Every serializer call that the callback of the event makes succeeds. -/
def EventOk {V : Type} (L : Libs V) (S : Session) : StreamEvent → Prop
  | .commit c =>
    (∃ b, encode L.jsonMarshalCommit L.cborMarshalCommit S.codec c = .ok b) ∧
    (S.debug = true → ∃ line, debugCommit L c = .ok line)
  | .handle h => ∃ b, L.jsonMarshalHandle h = .ok b
  | .info i => ∃ b, L.jsonMarshalInfo i = .ok b

/-- The commit events of a stream, in order. -/
def commitsOf (evts : List StreamEvent) : List Commit :=
  evts.filterMap (fun e => match e with
    | .commit c => some c
    | _ => none)

/-! ## Sample values -/

/-- Sample libraries: the binary serializer rejects the commit of sequence
number 3, and every `Publish` call returns an error. -/
def demoLibs : Libs String where
  jsonMarshalCommit := fun _ => .ok [123, 125]
  cborMarshalCommit := fun c => if c.seq = 3 then .error "cbor: unsupported type" else .ok [161]
  jsonMarshalHandle := fun _ => .ok [123, 125]
  jsonMarshalInfo := fun _ => .ok [123, 125]
  jsonUnmarshal := fun _ => .ok []
  jsonMarshalMap := fun _ => .ok [123, 125]
  anyString := fun s => s
  natsPublish := fun _ _ _ => some "nats: connection closed"

/-- Sample session: the default subject and codec, debug off. -/
def demoSession : Session := ⟨"broadsky.stream.test", "cbor", false⟩

/-- Sample commit with the given sequence number and operations. -/
def demoCommit (seq : Int) (ops : List RepoOp) : Commit := ⟨"did:plc:demo", seq, ops, []⟩

/-- Sample operation: creation of a post. -/
def demoPost : RepoOp := ⟨"create", "app.bsky.feed.post/3k"⟩

/-- Sample operation: deletion of a like. -/
def demoUnlike : RepoOp := ⟨"delete", "app.bsky.feed.like/3j"⟩

/-- A `Publish` call made for the commit `c`: on the commit subject, with the
encoding of `c` as payload. -/
def CallFor {V : Type} (L : Libs V) (S : Session) (call : PublishCall) (c : Commit) : Prop :=
  call.subject = S.subject ++ ".commit" ∧
  encode L.jsonMarshalCommit L.cborMarshalCommit S.codec c = .ok call.data

/-- The invariant of the metrics: distinct keys, total equal to the sum of the
stored counts, every stored count at least 1. -/
def MetricsInv (s : MetricsData) : Prop :=
  s.counts.WF ∧ s.total = (s.counts.map Prod.snd).sum ∧
    ∀ k v, s.counts.get? k = some v → 1 ≤ v

/-! # Theorems -/

/-! ## Codec theorems -/

theorem encode_json {α : Type} (jm cm : α → Except GoError Bytes) (evt : α) :
    encode jm cm "json" evt = jm evt := by
  unfold encode
  rw [if_pos rfl]
  cases jm evt <;> rfl

theorem encode_other {α : Type} (jm cm : α → Except GoError Bytes) (codec : String)
    (evt : α) (h : codec ≠ "json") : encode jm cm codec evt = cm evt := by
  unfold encode
  rw [if_neg h]
  cases cm evt <;> rfl

/-- C9: for a codec string other than "json", encode returns what it returns
for "cbor", which is the result of the binary serializer; for "json" it returns
the result of the JSON serializer; and encode fails exactly when the selected
serializer fails, with that error. -/
theorem encode_codec_fallback {α : Type} (jm cm : α → Except GoError Bytes)
    (codec : String) (evt : α) (h : codec ≠ "json") :
    encode jm cm codec evt = encode jm cm "cbor" evt ∧
    encode jm cm codec evt = cm evt ∧
    encode jm cm "json" evt = jm evt ∧
    (∀ err, encode jm cm codec evt = .error err ↔ cm evt = .error err) ∧
    (∀ err, encode jm cm "json" evt = .error err ↔ jm evt = .error err) := by
  have h1 := encode_other jm cm codec evt h
  have h2 := encode_other jm cm "cbor" evt (by decide)
  have h3 := encode_json jm cm evt
  refine ⟨by rw [h1, h2], h1, h3, fun err => by rw [h1], fun err => by rw [h3]⟩

theorem encode_codec_fallback_witness :
    "xml" ≠ "json" ∧
    encode demoLibs.jsonMarshalCommit demoLibs.cborMarshalCommit "xml" (demoCommit 1 []) =
      encode demoLibs.jsonMarshalCommit demoLibs.cborMarshalCommit "cbor" (demoCommit 1 []) :=
  ⟨by decide,
   (encode_codec_fallback demoLibs.jsonMarshalCommit demoLibs.cborMarshalCommit "xml"
      (demoCommit 1 []) (by decide)).1⟩

/-! ## The commit callback -/

theorem repoCommit_encode_error {V : Type} (L : Libs V) (S : Session) (evt : Commit)
    (w : World) (err : GoError)
    (h : encode L.jsonMarshalCommit L.cborMarshalCommit S.codec evt = .error err) :
    repoCommit L S evt w = (some err, w) := by
  unfold repoCommit
  rw [h]

theorem repoCommit_encode_ok {V : Type} (L : Libs V) (S : Session) (evt : Commit)
    (w : World) (b : Bytes)
    (h : encode L.jsonMarshalCommit L.cborMarshalCommit S.codec evt = .ok b) :
    (repoCommit L S evt w).2.published =
      w.published ++ [PublishCall.mk (S.subject ++ ".commit") b
        (L.natsPublish w.published (S.subject ++ ".commit") b)] ∧
    (repoCommit L S evt w).2.stats = recordOps w.stats evt.ops ∧
    (repoCommit L S evt w).1 =
      (if S.debug then
        (match debugCommit L evt with
         | .error err => some err
         | .ok _ => none)
       else none) := by
  unfold repoCommit
  rw [h]
  cases hd : S.debug
  · simp
  · cases hr : debugCommit L evt <;> simp

theorem repoCommit_ok {V : Type} (L : Libs V) (S : Session) (evt : Commit)
    (w : World) (b : Bytes)
    (h : encode L.jsonMarshalCommit L.cborMarshalCommit S.codec evt = .ok b)
    (hd : S.debug = true → ∃ line, debugCommit L evt = .ok line) :
    (repoCommit L S evt w).1 = none := by
  rw [(repoCommit_encode_ok L S evt w b h).2.2]
  cases hs : S.debug
  · simp
  · obtain ⟨line, hl⟩ := hd hs
    simp [hl]

theorem eventHandler_ok {V : Type} (L : Libs V) (S : Session) (e : StreamEvent) (w : World)
    (h : EventOk L S e) :
    (eventHandler L S e w).1 = none ∧
    (∃ calls, (eventHandler L S e w).2.published = w.published ++ calls ∧
      List.Forall₂ (CallFor L S) calls (commitsOf [e])) ∧
    (eventHandler L S e w).2.stats =
      (commitsOf [e]).foldl (fun st c => recordOps st c.ops) w.stats := by
  cases e with
  | commit c =>
    obtain ⟨⟨b, hb⟩, hd⟩ := h
    have h1 := repoCommit_encode_ok L S c w b hb
    refine ⟨repoCommit_ok L S c w b hb hd, ⟨_, h1.1, ?_⟩, ?_⟩
    · simp only [commitsOf, List.filterMap_cons, List.filterMap_nil]
      exact List.Forall₂.cons ⟨rfl, hb⟩ List.Forall₂.nil
    · simp only [commitsOf, List.filterMap_cons, List.filterMap_nil, List.foldl_cons,
        List.foldl_nil]
      exact h1.2.1
  | handle hd =>
    obtain ⟨b, hb⟩ := h
    simp only [eventHandler, repoHandle, hb, commitsOf, List.filterMap_cons,
      List.filterMap_nil, List.foldl_nil]
    cases S.debug <;> simp
  | info i =>
    obtain ⟨b, hb⟩ := h
    simp [eventHandler, repoInfo, hb, commitsOf]

theorem commitsOf_cons (e : StreamEvent) (es : List StreamEvent) :
    commitsOf (e :: es) = commitsOf [e] ++ commitsOf es := by
  cases e <;> simp [commitsOf]

theorem dispatch_cons_ok {V : Type} (L : Libs V) (S : Session) (e : StreamEvent)
    (es : List StreamEvent) (w w1 : World) (h : eventHandler L S e w = (none, w1)) :
    dispatch L S (e :: es) w = dispatch L S es w1 := by
  simp only [dispatch, h]

theorem dispatch_cons_err {V : Type} (L : Libs V) (S : Session) (e : StreamEvent)
    (es : List StreamEvent) (w w1 : World) (err : GoError)
    (h : eventHandler L S e w = (some err, w1)) :
    dispatch L S (e :: es) w = (some err, w1) := by
  simp only [dispatch, h]

theorem dispatch_ok {V : Type} (L : Libs V) (S : Session) (evts : List StreamEvent) :
    ∀ w : World, (∀ e ∈ evts, EventOk L S e) →
    (dispatch L S evts w).1 = none ∧
    (∃ calls, (dispatch L S evts w).2.published = w.published ++ calls ∧
      List.Forall₂ (CallFor L S) calls (commitsOf evts)) ∧
    (dispatch L S evts w).2.stats =
      (commitsOf evts).foldl (fun st c => recordOps st c.ops) w.stats := by
  induction evts with
  | nil =>
    intro w _
    exact ⟨rfl, ⟨[], by simp [dispatch], by simp [commitsOf]⟩, by simp [dispatch, commitsOf]⟩
  | cons e es ih =>
    intro w h
    obtain ⟨h1, ⟨calls1, hp1, hf1⟩, hs1⟩ :=
      eventHandler_ok L S e w (h e (List.mem_cons_self e es))
    have hstep : dispatch L S (e :: es) w = dispatch L S es (eventHandler L S e w).2 := by
      cases hr : eventHandler L S e w with
      | mk r w1 =>
        rw [hr] at h1
        simp only at h1
        subst h1
        simp [dispatch, hr]
    obtain ⟨h2, ⟨calls2, hp2, hf2⟩, hs2⟩ :=
      ih (eventHandler L S e w).2 (fun e1 he1 => h e1 (List.mem_cons_of_mem e he1))
    rw [hstep, commitsOf_cons]
    refine ⟨h2, ⟨calls1 ++ calls2, ?_, ?_⟩, ?_⟩
    · rw [hp2, hp1, List.append_assoc]
    · exact List.rel_append hf1 hf2
    · rw [hs2, hs1, List.foldl_append]

/-- C2: when every serializer call succeeds, the dispatch of a sequence of
upstream events runs to its end without error, and the calls it adds to the
sink are, in order, one call per commit event of the sequence, each on the
subject base-subject + ".commit" with the encoding of that commit as payload;
handle and info events add no call. -/
theorem publish_one_per_commit_in_order {V : Type} (L : Libs V) (S : Session)
    (evts : List StreamEvent) (w : World) (h : ∀ e ∈ evts, EventOk L S e) :
    (dispatch L S evts w).1 = none ∧
    ∃ calls, (dispatch L S evts w).2.published = w.published ++ calls ∧
      List.Forall₂
        (fun call c => call.subject = S.subject ++ ".commit" ∧
          encode L.jsonMarshalCommit L.cborMarshalCommit S.codec c = .ok call.data)
        calls (commitsOf evts) :=
  ⟨(dispatch_ok L S evts w h).1, (dispatch_ok L S evts w h).2.1⟩

theorem publish_one_per_commit_in_order_witness :
    (∀ e ∈ [StreamEvent.commit (demoCommit 1 [demoPost]), StreamEvent.handle ⟨"did:plc:demo", "demo.bsky.social"⟩,
        StreamEvent.commit (demoCommit 2 [demoUnlike]), StreamEvent.info ⟨"OutdatedCursor", ""⟩],
      EventOk demoLibs demoSession e) ∧
    (dispatch demoLibs demoSession
      [StreamEvent.commit (demoCommit 1 [demoPost]), StreamEvent.handle ⟨"did:plc:demo", "demo.bsky.social"⟩,
        StreamEvent.commit (demoCommit 2 [demoUnlike]), StreamEvent.info ⟨"OutdatedCursor", ""⟩]
      initWorld).1 = none ∧
    (dispatch demoLibs demoSession
      [StreamEvent.commit (demoCommit 1 [demoPost]), StreamEvent.handle ⟨"did:plc:demo", "demo.bsky.social"⟩,
        StreamEvent.commit (demoCommit 2 [demoUnlike]), StreamEvent.info ⟨"OutdatedCursor", ""⟩]
      initWorld).2.published.map (fun call => (call.subject, call.data)) =
      [("broadsky.stream.test.commit", [161]), ("broadsky.stream.test.commit", [161])] :=
  have hok : ∀ e ∈ [StreamEvent.commit (demoCommit 1 [demoPost]),
      StreamEvent.handle ⟨"did:plc:demo", "demo.bsky.social"⟩,
      StreamEvent.commit (demoCommit 2 [demoUnlike]), StreamEvent.info ⟨"OutdatedCursor", ""⟩],
      EventOk demoLibs demoSession e := by
    intro e he
    simp only [List.mem_cons, List.mem_singleton, List.not_mem_nil, or_false] at he
    rcases he with rfl | rfl | rfl | rfl
    · exact ⟨⟨[161], rfl⟩, fun hd => absurd hd (by decide)⟩
    · exact ⟨[123, 125], rfl⟩
    · exact ⟨⟨[161], rfl⟩, fun hd => absurd hd (by decide)⟩
    · exact ⟨[123, 125], rfl⟩
  ⟨hok, (publish_one_per_commit_in_order demoLibs demoSession _ initWorld hok).1, rfl⟩

/-- C4, as stated, fails: with an encode that succeeds and a `Publish` that
returns an error, the commit callback returns no error. -/
theorem publish_error_not_returned :
    encode demoLibs.jsonMarshalCommit demoLibs.cborMarshalCommit demoSession.codec
      (demoCommit 1 [demoPost]) = .ok [161] ∧
    demoLibs.natsPublish initWorld.published (demoSession.subject ++ ".commit") [161] =
      some "nats: connection closed" ∧
    (repoCommit demoLibs demoSession (demoCommit 1 [demoPost]) initWorld).1 = none ∧
    (repoCommitV0 demoLibs demoSession (demoCommit 1 [demoPost]) initWorld).1 = none :=
  ⟨rfl, rfl, rfl, rfl⟩

/-- C4, amended: for a commit event whose encode succeeds, the commit callback
(of `main.go` and of the older `broadsky.go`) calls `Publish` exactly once, on
the commit subject with the encoded payload, and does not look at what the call
returned: whatever that is, the metrics are updated with the operations of the
event and the callback returns no error, or in debug mode the error of the
debug rendering. -/
theorem publish_result_ignored {V : Type} (L : Libs V) (S : Session) (evt : Commit)
    (w : World) (b : Bytes)
    (h : encode L.jsonMarshalCommit L.cborMarshalCommit S.codec evt = .ok b) :
    (repoCommit L S evt w).2.published =
      w.published ++ [PublishCall.mk (S.subject ++ ".commit") b
        (L.natsPublish w.published (S.subject ++ ".commit") b)] ∧
    (repoCommit L S evt w).2.stats = recordOps w.stats evt.ops ∧
    (repoCommit L S evt w).1 =
      (if S.debug then
        (match debugCommit L evt with
         | .error err => some err
         | .ok _ => none)
       else none) ∧
    (repoCommitV0 L S evt w).2.published =
      w.published ++ [PublishCall.mk (S.subject ++ ".commit") b
        (L.natsPublish w.published (S.subject ++ ".commit") b)] ∧
    (repoCommitV0 L S evt w).1 =
      (if S.debug then
        (match debugCommit L evt with
         | .error err => some err
         | .ok _ => none)
       else none) := by
  obtain ⟨h1, h2, h3⟩ := repoCommit_encode_ok L S evt w b h
  refine ⟨h1, h2, h3, ?_, ?_⟩
  · unfold repoCommitV0
    rw [h]
    cases hd : S.debug
    · simp
    · cases hr : debugCommit L evt <;> simp
  · unfold repoCommitV0
    rw [h]
    cases hd : S.debug
    · simp
    · cases hr : debugCommit L evt <;> simp

theorem publish_result_ignored_witness :
    encode demoLibs.jsonMarshalCommit demoLibs.cborMarshalCommit demoSession.codec
      (demoCommit 1 [demoPost]) = .ok [161] ∧
    (repoCommit demoLibs demoSession (demoCommit 1 [demoPost]) initWorld).2.published =
      initWorld.published ++ [PublishCall.mk (demoSession.subject ++ ".commit") [161]
        (demoLibs.natsPublish initWorld.published (demoSession.subject ++ ".commit") [161])] :=
  ⟨rfl, (publish_result_ignored demoLibs demoSession (demoCommit 1 [demoPost]) initWorld
    [161] rfl).1⟩

/-- C5: a commit event whose encode fails makes the commit callback return that
error with the world unchanged: nothing published, total and every per-key count
as before. Consequently, in a stream of five events of which the first three are
commits, with the encodings of the first two succeeding and the encoding of the
third failing, the dispatch stops with that error; the calls on the sink are
those for events 1 and 2, the metrics are those after the operations of events 1
and 2, and events 4 and 5 leave no trace. -/
theorem encode_failure_stops_dispatch {V : Type} (L : Libs V) (S : Session)
    (c1 c2 c3 : Commit) (e4 e5 : StreamEvent) (w : World) (err : GoError)
    (h1 : EventOk L S (.commit c1)) (h2 : EventOk L S (.commit c2))
    (h3 : encode L.jsonMarshalCommit L.cborMarshalCommit S.codec c3 = .error err) :
    repoCommit L S c3 w = (some err, w) ∧
    (dispatch L S [.commit c1, .commit c2, .commit c3, e4, e5] w).1 = some err ∧
    (∃ call1 call2,
      (dispatch L S [.commit c1, .commit c2, .commit c3, e4, e5] w).2.published =
        w.published ++ [call1, call2] ∧
      call1.subject = S.subject ++ ".commit" ∧
      encode L.jsonMarshalCommit L.cborMarshalCommit S.codec c1 = .ok call1.data ∧
      call2.subject = S.subject ++ ".commit" ∧
      encode L.jsonMarshalCommit L.cborMarshalCommit S.codec c2 = .ok call2.data) ∧
    (dispatch L S [.commit c1, .commit c2, .commit c3, e4, e5] w).2.stats =
      recordOps (recordOps w.stats c1.ops) c2.ops := by
  have hpre : ∀ e ∈ [StreamEvent.commit c1, StreamEvent.commit c2], EventOk L S e := by
    intro e he
    simp only [List.mem_cons, List.mem_singleton, List.not_mem_nil, or_false] at he
    rcases he with rfl | rfl
    · exact h1
    · exact h2
  obtain ⟨hn, ⟨calls, hp, hf⟩, hs⟩ := dispatch_ok L S _ w hpre
  have hsplit : dispatch L S [.commit c1, .commit c2, .commit c3, e4, e5] w =
      (some err, (dispatch L S [.commit c1, .commit c2] w).2) := by
    have e1 := (eventHandler_ok L S (.commit c1) w h1).1
    have e2 := (eventHandler_ok L S (.commit c2) (eventHandler L S (.commit c1) w).2 h2).1
    cases hr1 : eventHandler L S (.commit c1) w with
    | mk r1 w1 =>
      rw [hr1] at e1 e2
      simp only at e1 e2
      subst e1
      cases hr2 : eventHandler L S (.commit c2) w1 with
      | mk r2 w2 =>
        rw [hr2] at e2
        simp only at e2
        subst e2
        have hr3 : eventHandler L S (.commit c3) w2 = (some err, w2) :=
          repoCommit_encode_error L S c3 w2 err h3
        rw [dispatch_cons_ok L S _ _ w w1 hr1, dispatch_cons_ok L S _ _ w1 w2 hr2,
          dispatch_cons_err L S _ _ w2 w2 err hr3, dispatch_cons_ok L S _ _ w w1 hr1,
          dispatch_cons_ok L S _ _ w1 w2 hr2]
        rfl
  refine ⟨repoCommit_encode_error L S c3 w err h3, by rw [hsplit], ?_, ?_⟩
  · simp only [commitsOf, List.filterMap_cons, List.filterMap_nil] at hf
    cases hf with
    | cons hc1 hrest =>
      cases hrest with
      | cons hc2 hnil =>
        cases hnil
        exact ⟨_, _, by rw [hsplit]; exact hp, hc1.1, hc1.2, hc2.1, hc2.2⟩
  · rw [hsplit]
    simpa [commitsOf] using hs

theorem encode_failure_stops_dispatch_witness :
    EventOk demoLibs demoSession (.commit (demoCommit 1 [demoPost])) ∧
    EventOk demoLibs demoSession (.commit (demoCommit 2 [demoUnlike])) ∧
    encode demoLibs.jsonMarshalCommit demoLibs.cborMarshalCommit demoSession.codec
      (demoCommit 3 [demoPost]) = .error "cbor: unsupported type" ∧
    (dispatch demoLibs demoSession
      [.commit (demoCommit 1 [demoPost]), .commit (demoCommit 2 [demoUnlike]),
       .commit (demoCommit 3 [demoPost]), .commit (demoCommit 4 [demoPost]),
       .commit (demoCommit 5 [demoPost])] initWorld).2.stats =
      recordOps (recordOps initWorld.stats (demoCommit 1 [demoPost]).ops)
        (demoCommit 2 [demoUnlike]).ops :=
  have h1 : EventOk demoLibs demoSession (.commit (demoCommit 1 [demoPost])) :=
    ⟨⟨[161], rfl⟩, fun hd => absurd hd (by decide)⟩
  have h2 : EventOk demoLibs demoSession (.commit (demoCommit 2 [demoUnlike])) :=
    ⟨⟨[161], rfl⟩, fun hd => absurd hd (by decide)⟩
  ⟨h1, h2, rfl,
   (encode_failure_stops_dispatch demoLibs demoSession _ _ (demoCommit 3 [demoPost])
      (.commit (demoCommit 4 [demoPost])) (.commit (demoCommit 5 [demoPost]))
      initWorld "cbor: unsupported type" h1 h2 rfl).2.2.2⟩

/-- C7, as stated, fails: processing a commit event with zero operations from
the initial metrics leaves total at 0. -/
theorem empty_commit_total_not_incremented :
    (demoCommit 1 []).ops = [] ∧
    (repoCommit demoLibs demoSession (demoCommit 1 []) initWorld).1 = none ∧
    ¬ ((repoCommit demoLibs demoSession (demoCommit 1 []) initWorld).2.stats.total >
        initWorld.stats.total) :=
  ⟨rfl, rfl, by decide⟩

/-- C7, amended: for every metrics state, processing a commit event that has
zero operations leaves the metrics as they were: total is unchanged, every
per-key count is unchanged and no key is added. -/
theorem empty_commit_keeps_metrics {V : Type} (L : Libs V) (S : Session) (evt : Commit)
    (w : World) (h : evt.ops = []) :
    (repoCommit L S evt w).2.stats = w.stats := by
  cases he : encode L.jsonMarshalCommit L.cborMarshalCommit S.codec evt with
  | error err => rw [repoCommit_encode_error L S evt w err he]
  | ok b =>
    rw [(repoCommit_encode_ok L S evt w b he).2.1, h]
    rfl

theorem empty_commit_keeps_metrics_witness :
    (demoCommit 1 []).ops = [] ∧
    (repoCommit demoLibs demoSession (demoCommit 1 []) initWorld).2.stats = initWorld.stats :=
  ⟨rfl, empty_commit_keeps_metrics demoLibs demoSession (demoCommit 1 []) initWorld rfl⟩

/-! ## Cancellation watcher -/

theorem watcherStep_nil_blocked (p : Proc) (h1 : p.pc = .recvMetricsQuit)
    (h2 : p.metricsQuit = none) : watcherStep p = p := by
  unfold watcherStep
  rw [h1]
  simp only
  rw [h2]

theorem watcherRun_nil_blocked (n : Nat) (p : Proc) (h1 : p.pc = .recvMetricsQuit)
    (h2 : p.metricsQuit = none) : watcherRun n p = p := by
  induction n with
  | zero => rfl
  | succ n ih =>
    unfold watcherRun
    rw [watcherStep_nil_blocked p h1 h2]
    exact ih

/-- C10 fails on `main.go` when the metrics endpoint is disabled: the watcher is
blocked on the nil channel `metricsQuit` before and after the delivery of the
cancellation signal, however often it is scheduled, and never closes the
connection. With the endpoint enabled it closes the connection after the signal,
and so does the watcher of the older `broadsky.go`. -/
theorem watcher_blocked_without_metrics (m n : Nat) :
    (watcherRun n (deliverSigint (watcherRun m (startWatcher false)))).conClosed = false ∧
    (watcherRun n (deliverSigint (watcherRun m (startWatcher false)))).ctxDone = true ∧
    (watcherRun 3 (deliverSigint (startWatcher true))).conClosed = true ∧
    (watcherRun 2 (deliverSigint startWatcherV0)).conClosed = true := by
  have h1 : watcherRun m (startWatcher false) = startWatcher false :=
    watcherRun_nil_blocked m _ rfl rfl
  have h2 : watcherRun n (deliverSigint (startWatcher false)) =
      deliverSigint (startWatcher false) :=
    watcherRun_nil_blocked n _ rfl rfl
  rw [h1, h2]
  exact ⟨rfl, rfl, by decide, by decide⟩

/-! ## Address normalization -/

theorem containsChars_iff (sub s : List Char) : containsChars sub s = true ↔ sub <:+: s := by
  induction s with
  | nil =>
    simp only [containsChars, List.isPrefixOf_iff_prefix, List.infix_nil, List.prefix_nil]
  | cons c cs ih =>
    simp only [containsChars, Bool.or_eq_true, List.isPrefixOf_iff_prefix, ih,
      List.infix_cons_iff]

theorem prefix_append_iff (a b s : List Char) :
    a ++ b <+: s ↔ a <+: s ∧ b <+: s.drop a.length := by
  induction a generalizing s with
  | nil => simp
  | cons x a ih =>
    cases s with
    | nil => simp
    | cons y s =>
      simp only [List.cons_append, List.cons_prefix_cons, List.length_cons, List.drop_succ_cons,
        ih, and_assoc]

theorem matchHere_lits (cs : List Char) (rest : List ReNode) (st : ReState) (s : List Char) :
    matchHere (cs.map lit ++ rest) st s =
      if cs <+: s then matchHere rest st (s.drop cs.length) else none := by
  induction cs generalizing s with
  | nil => simp
  | cons c cs ih =>
    cases s with
    | nil => simp [matchHere, lit]
    | cons x xs =>
      simp only [List.map_cons, List.cons_append, lit, matchHere, List.cons_prefix_cons,
        List.length_cons, List.drop_succ_cons, beq_iff_eq, List.append_eq]
      rw [ih]
      by_cases h : x = c
      · subst h
        simp
      · simp [h, Ne.symm h]

theorem matchHere_lits_nil (cs : List Char) (st : ReState) (s : List Char) :
    (matchHere (cs.map lit ++ []) st s).isSome = true ↔ cs <+: s := by
  rw [matchHere_lits]
  by_cases h : cs <+: s <;> simp [h, matchHere]

theorem matchHere_opt_isSome (p : Char → Bool) (rest : List ReNode) (st : ReState)
    (t : List Char) :
    (matchHere (.opt p :: rest) st t).isSome = true ↔
      ((∃ c cs, t = c :: cs ∧ p c = true ∧ (matchHere rest st cs).isSome = true) ∨
        (matchHere rest st t).isSome = true) := by
  cases t with
  | nil => simp [matchHere]
  | cons c cs =>
    simp only [matchHere]
    constructor
    · intro h
      by_cases hp : p c = true
      · rw [if_pos hp] at h
        cases h1 : matchHere rest st cs with
        | none =>
          rw [h1] at h
          exact Or.inr h
        | some r => exact Or.inl ⟨c, cs, rfl, hp, by rw [h1]; rfl⟩
      · rw [if_neg hp] at h
        exact Or.inr h
    · rintro (⟨c1, cs1, heq, hp, h⟩ | h)
      · cases heq
        rw [if_pos hp]
        cases h1 : matchHere rest st cs with
        | none =>
          rw [h1] at h
          simp at h
        | some r => rfl
      · by_cases hp : p c = true
        · rw [if_pos hp]
          cases h1 : matchHere rest st cs with
          | none => exact h
          | some r => rfl
        · rw [if_neg hp]
          exact h

theorem matchHere_wsScheme (st : ReState) (s : List Char) :
    (matchHere wsSchemeRe st s).isSome = true ↔
      (['w', 's', ':', '/', '/'] <+: s ∨ ['w', 's', 's', ':', '/', '/'] <+: s) := by
  have hre : wsSchemeRe =
      ['w', 's'].map lit ++ (.opt (fun x => x == 's') :: ([':', '/', '/'].map lit ++ [])) := rfl
  have h5 : ['w', 's', ':', '/', '/'] = ['w', 's'] ++ [':', '/', '/'] := rfl
  have h6 : ['w', 's', 's', ':', '/', '/'] = ['w', 's'] ++ 's' :: [':', '/', '/'] := rfl
  rw [hre, matchHere_lits, h5, h6, prefix_append_iff, prefix_append_iff]
  by_cases hp : ['w', 's'] <+: s
  · simp only [hp, if_true, true_and]
    generalize List.drop ['w', 's'].length s = t
    rw [matchHere_opt_isSome]
    simp only [matchHere_lits_nil, beq_iff_eq]
    constructor
    · rintro (⟨c, cs, rfl, rfl, h⟩ | h)
      · exact Or.inr ((List.cons_prefix_cons).2 ⟨rfl, h⟩)
      · exact Or.inl h
    · rintro (h | h)
      · exact Or.inr h
      · cases t with
        | nil => simp at h
        | cons c cs =>
          obtain ⟨hc, hcs⟩ := (List.cons_prefix_cons).1 h
          subst hc
          exact Or.inl ⟨_, _, rfl, rfl, hcs⟩
  · simp [hp]

theorem reMatch_wsScheme (s : String) :
    reMatch wsSchemeRe s = true ↔ ("ws://".data <+: s.data ∨ "wss://".data <+: s.data) :=
  matchHere_wsScheme ⟨[], []⟩ s.data

theorem normalizeRepo_eq_spec (a c : String) (h : a ≠ "") :
    normalizeRepo a c = .ok (specNormalize a c) := by
  unfold normalizeRepo specNormalize
  rw [if_neg h]
  have e1 : (if !stringsContains a "subscribeRepos" then
        a ++ "/xrpc/com.atproto.sync.subscribeRepos" else a) = specAppendPath a := by
    unfold specAppendPath stringsContains
    by_cases hc : "subscribeRepos".data <:+: a.data
    · rw [if_pos hc, (containsChars_iff _ _).2 hc]
      rfl
    · rw [if_neg hc]
      have hf : containsChars "subscribeRepos".data a.data = false := by
        rw [← Bool.not_eq_true, containsChars_iff]
        exact hc
      rw [hf]
      rfl
  have e2 : ∀ r : String, (if !reMatch wsSchemeRe r then "wss://" ++ r else r) =
      specPrependScheme r := by
    intro r
    unfold specPrependScheme
    by_cases hc : "ws://".data <+: r.data ∨ "wss://".data <+: r.data
    · rw [if_pos hc, (reMatch_wsScheme r).2 hc]
      rfl
    · rw [if_neg hc]
      have hf : reMatch wsSchemeRe r = false := by
        rw [← Bool.not_eq_true, reMatch_wsScheme]
        exact hc
      rw [hf]
      rfl
  have e3 : ∀ r : String, (if c ≠ "" then r ++ "?cursor=" ++ c else r) =
      specAppendCursor r c := by
    intro r
    unfold specAppendCursor
    by_cases hc : c = ""
    · rw [if_pos hc, if_neg (not_not.2 hc)]
    · rw [if_neg hc, if_pos hc, String.append_assoc]
  simp only [e1, e2, e3]

/-- C3: for a non-empty address, the normalization of the code is the three
steps of the specification in order: append the subscription path iff the
address does not contain "subscribeRepos", then prepend "wss://" iff the result
does not start with "ws://" or "wss://", then append "?cursor=" and the cursor
iff the cursor is non-empty. In particular "bsky.social" without cursor and with
cursor "42" give the two addresses of the specification. -/
theorem normalize_address (a c : String) (h : a ≠ "") :
    normalizeRepo a c = .ok (specAppendCursor (specPrependScheme (specAppendPath a)) c) ∧
    normalizeRepo "bsky.social" "" =
      .ok "wss://bsky.social/xrpc/com.atproto.sync.subscribeRepos" ∧
    normalizeRepo "bsky.social" "42" =
      .ok "wss://bsky.social/xrpc/com.atproto.sync.subscribeRepos?cursor=42" :=
  ⟨normalizeRepo_eq_spec a c h, rfl, rfl⟩

theorem normalize_address_witness :
    "wss://bsky.network" ≠ "" ∧
    normalizeRepo "wss://bsky.network" "7" =
      .ok (specAppendCursor (specPrependScheme (specAppendPath "wss://bsky.network")) "7") ∧
    specAppendCursor (specPrependScheme (specAppendPath "wss://bsky.network")) "7" =
      "wss://bsky.network/xrpc/com.atproto.sync.subscribeRepos?cursor=7" :=
  ⟨by decide, (normalize_address "wss://bsky.network" "7" (by decide)).1, by decide⟩

/-! ## Go maps -/

namespace GoMap

theorem get?_set {β : Type} (m : GoMap β) (k : String) (v : β) (k1 : String) :
    get? (set m k v) k1 = if k1 = k then some v else get? m k1 := by
  induction m with
  | nil =>
    by_cases h : k1 = k
    · simp [set, get?, h]
    · simp [set, get?, h, Ne.symm h]
  | cons p rest ih =>
    obtain ⟨k0, v0⟩ := p
    by_cases h0 : k0 = k
    · by_cases h : k1 = k
      · simp [set, get?, h0, h]
      · have h2 : ¬ k = k1 := Ne.symm h
        simp [set, get?, h0, h, h2]
    · by_cases h : k1 = k
      · subst h
        simp [set, get?, h0, ih]
      · simp [set, get?, h0, h, ih]

theorem getD_set {β : Type} (m : GoMap β) (k : String) (v zero : β) (k1 : String) :
    getD (set m k v) k1 zero = if k1 = k then v else getD m k1 zero := by
  unfold getD
  rw [get?_set]
  by_cases h : k1 = k <;> simp [h]

theorem sum_set (m : GoMap Int) (k : String) (v : Int) :
    ((set m k v).map Prod.snd).sum = (m.map Prod.snd).sum - getD m k 0 + v := by
  induction m with
  | nil => simp [set, getD, get?]
  | cons p rest ih =>
    obtain ⟨k0, v0⟩ := p
    by_cases h0 : k0 = k
    · simp only [set, getD, get?, h0, if_true, List.map_cons, List.sum_cons, Option.getD_some]
      omega
    · simp only [set, h0, if_false, List.map_cons, List.sum_cons, ih, getD, get?]
      omega

theorem keys_set {β : Type} (m : GoMap β) (k : String) (v : β) :
    (set m k v).map Prod.fst =
      if k ∈ m.map Prod.fst then m.map Prod.fst else m.map Prod.fst ++ [k] := by
  induction m with
  | nil => simp [set]
  | cons p rest ih =>
    obtain ⟨k0, v0⟩ := p
    by_cases h0 : k0 = k
    · simp [set, h0]
    · have h1 : ¬ k = k0 := Ne.symm h0
      simp only [set, h0, if_false, List.map_cons, List.mem_cons, h1, false_or, ih]
      split_ifs <;> simp

theorem WF_set {β : Type} (m : GoMap β) (k : String) (v : β) (h : WF m) : WF (set m k v) := by
  unfold WF at *
  rw [keys_set]
  split_ifs with hk
  · exact h
  · exact List.Nodup.append h (List.nodup_singleton k) (by simpa using hk)

theorem get?_of_mem {β : Type} (m : GoMap β) (k : String) (v : β) (h : WF m)
    (hm : (k, v) ∈ m) : get? m k = some v := by
  induction m with
  | nil => simp at hm
  | cons p rest ih =>
    obtain ⟨k0, v0⟩ := p
    unfold WF at h
    simp only [List.map_cons, List.nodup_cons] at h
    rcases List.mem_cons.1 hm with heq | hrest
    · cases heq
      simp [get?]
    · have hne : k0 ≠ k := by
        intro hk
        subst hk
        exact h.1 (List.mem_map_of_mem Prod.fst hrest)
      simp only [get?, hne, if_false]
      exact ih h.2 hrest

theorem mem_of_get? {β : Type} (m : GoMap β) (k : String) (v : β)
    (h : get? m k = some v) : (k, v) ∈ m := by
  induction m with
  | nil => simp [get?] at h
  | cons p rest ih =>
    obtain ⟨k0, v0⟩ := p
    by_cases h0 : k0 = k
    · simp only [get?, h0, if_true, Option.some.injEq] at h
      subst h0 h
      exact List.mem_cons_self _ _
    · simp only [get?, h0, if_false] at h
      exact List.mem_cons_of_mem _ (ih h)

end GoMap

/-! ## Metrics -/

theorem recordOp_total (s : MetricsData) (op : RepoOp) :
    (recordOp s op).total = s.total + 1 := rfl

theorem recordOp_get? (s : MetricsData) (op : RepoOp) (k : String) :
    (recordOp s op).counts.get? k =
      if k = opKey op then some (s.counts.getD (opKey op) 0 + 1) else s.counts.get? k := by
  unfold recordOp
  simp only [GoMap.get?_set]
  by_cases hk : k = opKey op
  · simp only [hk, if_true, Option.some.injEq, add_left_inj]
    cases hg : GoMap.get? s.counts (opKey op) with
    | none => simp [GoMap.getD, GoMap.get?_set, hg]
    | some v => simp
  · simp only [hk, if_false]
    cases hg : GoMap.get? s.counts (opKey op) with
    | none => simp [GoMap.get?_set, hk]
    | some v => simp

theorem recordOp_getD (s : MetricsData) (op : RepoOp) (k : String) :
    (recordOp s op).counts.getD k 0 =
      s.counts.getD k 0 + (if k = opKey op then 1 else 0) := by
  unfold GoMap.getD
  rw [recordOp_get?]
  by_cases hk : k = opKey op
  · simp [hk, GoMap.getD]
  · simp [hk]

theorem recordOp_sum (s : MetricsData) (op : RepoOp) :
    ((recordOp s op).counts.map Prod.snd).sum = (s.counts.map Prod.snd).sum + 1 := by
  unfold recordOp
  simp only [GoMap.sum_set]
  cases hg : GoMap.get? s.counts (opKey op) with
  | none =>
    simp only [Option.isNone_none, if_true, GoMap.sum_set, GoMap.getD_set, GoMap.getD, hg,
      Option.getD_none]
    omega
  | some v =>
    simp only [Option.isNone_some, Bool.false_eq_true, if_false]
    omega

theorem recordOp_WF (s : MetricsData) (op : RepoOp) (h : s.counts.WF) :
    (recordOp s op).counts.WF := by
  unfold recordOp
  apply GoMap.WF_set
  split_ifs
  · exact GoMap.WF_set _ _ _ h
  · exact h

theorem metricsInv_init : MetricsInv initStats :=
  ⟨List.nodup_nil, rfl, fun k v h => by simp [initStats, GoMap.get?] at h⟩

theorem metricsInv_recordOp (s : MetricsData) (op : RepoOp) (h : MetricsInv s) :
    MetricsInv (recordOp s op) := by
  obtain ⟨hwf, hsum, hpos⟩ := h
  refine ⟨recordOp_WF s op hwf, ?_, ?_⟩
  · rw [recordOp_total, recordOp_sum, hsum]
  · intro k v hv
    rw [recordOp_get?] at hv
    by_cases hk : k = opKey op
    · simp only [hk, if_true, Option.some.injEq] at hv
      have h0 : 0 ≤ GoMap.getD s.counts (opKey op) 0 := by
        unfold GoMap.getD
        cases hg : GoMap.get? s.counts (opKey op) with
        | none => simp
        | some v0 =>
          have := hpos _ _ hg
          simp only [Option.getD_some]
          omega
      omega
    · simp only [hk, if_false] at hv
      exact hpos k v hv

theorem metricsInv_recordOps (ops : List RepoOp) :
    ∀ s : MetricsData, MetricsInv s → MetricsInv (recordOps s ops) := by
  induction ops with
  | nil => exact fun s h => h
  | cons op ops ih => exact fun s h => ih (recordOp s op) (metricsInv_recordOp s op h)

theorem recordOps_append (s : MetricsData) (a b : List RepoOp) :
    recordOps (recordOps s a) b = recordOps s (a ++ b) := by
  unfold recordOps
  rw [List.foldl_append]

theorem eventHandler_stats {V : Type} (L : Libs V) (S : Session) (e : StreamEvent) (w : World) :
    ∃ ops, (eventHandler L S e w).2.stats = recordOps w.stats ops := by
  cases e with
  | commit c =>
    cases he : encode L.jsonMarshalCommit L.cborMarshalCommit S.codec c with
    | error err => exact ⟨[], by simp [eventHandler, repoCommit_encode_error L S c w err he, recordOps]⟩
    | ok b => exact ⟨c.ops, (repoCommit_encode_ok L S c w b he).2.1⟩
  | handle h =>
    refine ⟨[], ?_⟩
    simp only [eventHandler, repoHandle, recordOps, List.foldl_nil]
    cases L.jsonMarshalHandle h <;> cases S.debug <;> rfl
  | info i =>
    refine ⟨[], ?_⟩
    simp only [eventHandler, repoInfo, recordOps, List.foldl_nil]
    cases L.jsonMarshalInfo i <;> rfl

theorem dispatch_stats {V : Type} (L : Libs V) (S : Session) (evts : List StreamEvent) :
    ∀ w : World, ∃ ops, (dispatch L S evts w).2.stats = recordOps w.stats ops := by
  induction evts with
  | nil => exact fun w => ⟨[], rfl⟩
  | cons e es ih =>
    intro w
    obtain ⟨ops1, h1⟩ := eventHandler_stats L S e w
    cases hr : eventHandler L S e w with
    | mk r w1 =>
      rw [hr] at h1
      cases r with
      | some err => exact ⟨ops1, by rw [dispatch_cons_err L S e es w w1 err hr]; exact h1⟩
      | none =>
        obtain ⟨ops2, h2⟩ := ih w1
        refine ⟨ops1 ++ ops2, ?_⟩
        rw [dispatch_cons_ok L S e es w w1 hr, h2, h1, recordOps_append]

/-- C6: every metrics state that the stream callbacks produce from the initial
state is the initial state after some whole number of processed operations; in
every such state, total equals the sum of the stored per-key counts, the keys
are distinct, every stored count is at least 1 and at most total; and one more
processed operation increases total by exactly 1, increases the count of its
own key by exactly 1 and leaves the count of every other key as it was (counts
are unbounded integers, the count of an absent key reads as 0). -/
theorem metrics_invariant (ops : List RepoOp) (op : RepoOp) :
    (recordOps initStats ops).total =
      ((recordOps initStats ops).counts.map Prod.snd).sum ∧
    (recordOps initStats ops).counts.WF ∧
    (∀ p ∈ (recordOps initStats ops).counts,
      1 ≤ p.2 ∧ p.2 ≤ (recordOps initStats ops).total) ∧
    (recordOp (recordOps initStats ops) op).total = (recordOps initStats ops).total + 1 ∧
    (∀ k, (recordOp (recordOps initStats ops) op).counts.getD k 0 =
      (recordOps initStats ops).counts.getD k 0 + (if k = opKey op then 1 else 0)) ∧
    (∀ (V : Type) (L : Libs V) (S : Session) (evts : List StreamEvent),
      ∃ done, (dispatch L S evts initWorld).2.stats = recordOps initStats done) := by
  obtain ⟨hwf, hsum, hpos⟩ := metricsInv_recordOps ops initStats metricsInv_init
  have hge : ∀ p ∈ (recordOps initStats ops).counts, 1 ≤ p.2 := fun p hp =>
    hpos p.1 p.2 (GoMap.get?_of_mem _ p.1 p.2 hwf hp)
  refine ⟨hsum, hwf, ?_, rfl, fun k => recordOp_getD _ op k,
    fun V L S evts => dispatch_stats L S evts initWorld⟩
  intro p hp
  refine ⟨hge p hp, ?_⟩
  rw [hsum]
  apply List.single_le_sum
  · intro x hx
    obtain ⟨q, hq, rfl⟩ := List.mem_map.1 hx
    have := hge q hq
    omega
  · exact List.mem_map_of_mem Prod.snd hp

/-! ## Counting operations -/

theorem splitChars_head (sep : Char) (l : List Char) :
    ∃ ws, splitChars sep l = l.takeWhile (fun x => x != sep) :: ws := by
  induction l with
  | nil => exact ⟨[], rfl⟩
  | cons c cs ih =>
    obtain ⟨ws, hws⟩ := ih
    by_cases hc : c = sep
    · exact ⟨splitChars sep cs, by simp [splitChars, hc]⟩
    · exact ⟨ws, by simp [splitChars, hc, hws]⟩

theorem opKey_eq (op : RepoOp) : opKey op = op.action ++ ":" ++ firstSegment op.path := by
  obtain ⟨ws, hws⟩ := splitChars_head '/' op.path.data
  unfold opKey stringsSplit firstSegment
  rw [hws]
  rfl

theorem key_inj (a1 a2 c1 c2 : String) (h1 : ':' ∉ a1.data) (h2 : ':' ∉ a2.data)
    (h : a1 ++ ":" ++ c1 = a2 ++ ":" ++ c2) : a1 = a2 ∧ c1 = c2 := by
  have hd : a1.data ++ ':' :: c1.data = a2.data ++ ':' :: c2.data := by
    have := congrArg String.data h
    simpa [String.data_append] using this
  have hp1 : ∀ x ∈ a1.data, (fun x => x != ':') x = true := by
    intro x hx
    have : x ≠ ':' := fun hxc => h1 (hxc ▸ hx)
    simpa using this
  have hp2 : ∀ x ∈ a2.data, (fun x => x != ':') x = true := by
    intro x hx
    have : x ≠ ':' := fun hxc => h2 (hxc ▸ hx)
    simpa using this
  have ht := congrArg (List.takeWhile (fun x => x != ':')) hd
  have hdr := congrArg (List.dropWhile (fun x => x != ':')) hd
  rw [List.takeWhile_append_of_pos hp1, List.takeWhile_append_of_pos hp2] at ht
  rw [List.dropWhile_append_of_pos hp1, List.dropWhile_append_of_pos hp2] at hdr
  simp only [List.takeWhile_cons, bne_self_eq_false, Bool.false_eq_true, if_false,
    List.append_nil] at ht
  simp only [List.dropWhile_cons, bne_self_eq_false, Bool.false_eq_true, if_false,
    List.cons.injEq, true_and] at hdr
  exact ⟨String.ext ht, String.ext hdr⟩

theorem action_no_colon (a : String) (h : a ∈ actions) : ':' ∉ a.data := by
  simp only [actions, List.mem_cons, List.mem_singleton, List.not_mem_nil, or_false] at h
  rcases h with rfl | rfl | rfl <;> decide

theorem recordOps_total (ops : List RepoOp) :
    ∀ s : MetricsData, (recordOps s ops).total = s.total + ops.length := by
  induction ops with
  | nil => intro s; simp [recordOps]
  | cons op ops ih =>
    intro s
    have h := ih (recordOp s op)
    simp only [recordOps, List.foldl_cons] at h ⊢
    rw [h, recordOp_total, List.length_cons]
    push_cast
    omega

theorem recordOps_get? (k : String) (ops : List RepoOp) :
    ∀ s : MetricsData, (recordOps s ops).counts.get? k =
      if ops.countP (fun op => decide (opKey op = k)) = 0 then s.counts.get? k
      else some (s.counts.getD k 0 + (ops.countP (fun op => decide (opKey op = k)) : Nat)) := by
  induction ops with
  | nil => intro s; simp [recordOps]
  | cons op ops ih =>
    intro s
    have h := ih (recordOp s op)
    simp only [recordOps, List.foldl_cons] at h ⊢
    rw [h, recordOp_get?, recordOp_getD, List.countP_cons]
    by_cases hk : k = opKey op
    · subst hk
      simp only [decide_True, if_true, Nat.add_one_ne_zero, if_false]
      split_ifs with h0
      · simp [h0]
      · congr 1
        push_cast
        omega
    · have hk2 : ¬ opKey op = k := fun e => hk e.symm
      simp [hk, hk2]

theorem foldl_recordOps (cs : List Commit) :
    ∀ s : MetricsData, cs.foldl (fun st c => recordOps st c.ops) s =
      recordOps s (cs.map (fun c => c.ops)).flatten := by
  induction cs with
  | nil => intro s; rfl
  | cons c cs ih =>
    intro s
    simp only [List.foldl_cons, List.map_cons, List.flatten_cons, ih, recordOps_append]

theorem commitsOf_map (cs : List Commit) : commitsOf (cs.map StreamEvent.commit) = cs := by
  induction cs with
  | nil => rfl
  | cons c cs ih =>
    rw [List.map_cons, commitsOf_cons, ih]
    rfl

/-- C1: starting from the empty metrics, for a sequence of commit events whose
operations all have an action among create, update, delete and whose
serializations all succeed, the dispatch processes the whole sequence without
error, and afterwards total is the number of operations of all events, and for
every action a and collection c the key a + ":" + c is absent when no operation
has action a and a path with first segment c, and otherwise holds the number of
such operations. -/
theorem metrics_count_operations {V : Type} (L : Libs V) (S : Session) (cs : List Commit)
    (hact : ∀ c ∈ cs, ∀ op ∈ c.ops, op.action ∈ actions)
    (hok : ∀ c ∈ cs, EventOk L S (.commit c)) :
    (dispatch L S (cs.map StreamEvent.commit) initWorld).1 = none ∧
    (dispatch L S (cs.map StreamEvent.commit) initWorld).2.stats.total =
      ((totalOps cs : Nat) : Int) ∧
    ∀ a ∈ actions, ∀ c : String,
      (dispatch L S (cs.map StreamEvent.commit) initWorld).2.stats.counts.get? (a ++ ":" ++ c) =
        if countOps a c cs = 0 then none else some ((countOps a c cs : Nat) : Int) := by
  have hall : ∀ e ∈ cs.map StreamEvent.commit, EventOk L S e := by
    intro e he
    obtain ⟨c, hc, rfl⟩ := List.mem_map.1 he
    exact hok c hc
  obtain ⟨hnone, -, hstats⟩ := dispatch_ok L S _ initWorld hall
  rw [commitsOf_map, foldl_recordOps] at hstats
  refine ⟨hnone, ?_, ?_⟩
  · rw [hstats, recordOps_total]
    simp only [initWorld, initStats, totalOps, List.length_flatten, List.map_map, zero_add]
    rfl
  · intro a ha c
    rw [hstats, recordOps_get?]
    have hcount : (cs.map (fun c => c.ops)).flatten.countP
        (fun op => decide (opKey op = a ++ ":" ++ c)) = countOps a c cs := by
      unfold countOps
      rw [List.countP_flatten, List.map_map]
      congr 1
      apply List.map_congr_left
      intro evt hevt
      apply List.countP_congr
      intro op hop
      simp only [Function.comp, decide_eq_true_eq]
      rw [opKey_eq]
      constructor
      · intro h
        exact key_inj _ _ _ _ (action_no_colon _ (hact evt hevt op hop))
          (action_no_colon _ ha) h
      · rintro ⟨h1, h2⟩
        rw [h1, h2]
    rw [hcount]
    simp [initWorld, initStats, GoMap.get?, GoMap.getD]

theorem metrics_count_operations_witness :
    (∀ c ∈ [demoCommit 1 [demoPost, demoUnlike], demoCommit 2 [demoPost]],
      ∀ op ∈ c.ops, op.action ∈ actions) ∧
    (∀ c ∈ [demoCommit 1 [demoPost, demoUnlike], demoCommit 2 [demoPost]],
      EventOk demoLibs demoSession (.commit c)) ∧
    (dispatch demoLibs demoSession
      ([demoCommit 1 [demoPost, demoUnlike], demoCommit 2 [demoPost]].map StreamEvent.commit)
      initWorld).2.stats.total = 3 ∧
    (dispatch demoLibs demoSession
      ([demoCommit 1 [demoPost, demoUnlike], demoCommit 2 [demoPost]].map StreamEvent.commit)
      initWorld).2.stats.counts.get? ("create" ++ ":" ++ "app.bsky.feed.post") = some 2 :=
  have hact : ∀ c ∈ [demoCommit 1 [demoPost, demoUnlike], demoCommit 2 [demoPost]],
      ∀ op ∈ c.ops, op.action ∈ actions := by
    intro c hc op hop
    simp only [List.mem_cons, List.mem_singleton, List.not_mem_nil, or_false] at hc
    rcases hc with rfl | rfl
    · simp only [demoCommit, List.mem_cons, List.mem_singleton, List.not_mem_nil,
        or_false] at hop
      rcases hop with rfl | rfl <;> decide
    · simp only [demoCommit, List.mem_cons, List.mem_singleton, List.not_mem_nil,
        or_false] at hop
      rcases hop with rfl
      decide
  have hok : ∀ c ∈ [demoCommit 1 [demoPost, demoUnlike], demoCommit 2 [demoPost]],
      EventOk demoLibs demoSession (.commit c) := by
    intro c hc
    simp only [List.mem_cons, List.mem_singleton, List.not_mem_nil, or_false] at hc
    rcases hc with rfl | rfl
    · exact ⟨⟨[161], rfl⟩, fun hd => absurd hd (by decide)⟩
    · exact ⟨⟨[161], rfl⟩, fun hd => absurd hd (by decide)⟩
  ⟨hact, hok,
   (metrics_count_operations demoLibs demoSession _ hact hok).2.1.trans (by decide),
   ((metrics_count_operations demoLibs demoSession _ hact hok).2.2 "create" (by decide)
      "app.bsky.feed.post").trans (by decide)⟩

/-! ## The pattern of the metric keys -/

theorem greedyStar_of_fail {R : Type} (p : Char → Bool) (k : List Char → Option R)
    (hfail : ∀ c cs, p c = true → k (c :: cs) = none) (s : List Char) :
    greedyStar p k s = k (s.dropWhile p) := by
  induction s with
  | nil => rfl
  | cons c cs ih =>
    by_cases hp : p c = true
    · simp only [greedyStar, hp, if_true, List.dropWhile_cons, ih]
      cases hk : k (List.dropWhile p cs) with
      | none => exact hfail c cs hp
      | some r => rfl
    · simp only [greedyStar, hp, List.dropWhile_cons]
      rfl

theorem greedyPlus_of_fail {R : Type} (p : Char → Bool) (k : List Char → Option R)
    (hfail : ∀ c cs, p c = true → k (c :: cs) = none) (s : List Char) :
    greedyPlus p k s = if s.takeWhile p = [] then none else k (s.dropWhile p) := by
  cases s with
  | nil => rfl
  | cons c cs =>
    by_cases hp : p c = true
    · simp only [greedyPlus, hp, if_true, List.takeWhile_cons, List.dropWhile_cons,
        greedyStar_of_fail p k hfail cs]
      rfl
    · simp only [greedyPlus, hp, List.takeWhile_cons]
      rfl

theorem greedyStar_of_isSome {R : Type} (p : Char → Bool) (k : List Char → Option R)
    (s : List Char) (h : (k (s.dropWhile p)).isSome = true) :
    greedyStar p k s = k (s.dropWhile p) := by
  induction s with
  | nil => rfl
  | cons c cs ih =>
    by_cases hp : p c = true
    · simp only [List.dropWhile_cons, hp, if_true] at h
      simp only [greedyStar, hp, if_true, List.dropWhile_cons, ih h]
      cases hk : k (List.dropWhile p cs) with
      | none => simp [hk] at h
      | some r => rfl
    · simp only [greedyStar, hp, List.dropWhile_cons]
      rfl

theorem greedyPlus_of_isSome {R : Type} (p : Char → Bool) (k : List Char → Option R)
    (s : List Char) (h : ∀ t, (k t).isSome = true) :
    greedyPlus p k s = if s.takeWhile p = [] then none else k (s.dropWhile p) := by
  cases s with
  | nil => rfl
  | cons c cs =>
    by_cases hp : p c = true
    · simp only [greedyPlus, hp, if_true, List.takeWhile_cons, List.dropWhile_cons,
        greedyStar_of_isSome p k cs (h _)]
      rfl
    · simp only [greedyPlus, hp, List.takeWhile_cons]
      rfl

theorem take_length_sub_dropWhile (p : Char → Bool) (s : List Char) :
    s.take (s.length - (s.dropWhile p).length) = s.takeWhile p := by
  have h := List.takeWhile_append_dropWhile p s
  have hl : s.length = (s.takeWhile p).length + (s.dropWhile p).length := by
    conv_lhs => rw [← h]
    exact List.length_append _ _
  have hn : s.length - (s.dropWhile p).length = (s.takeWhile p).length := by omega
  rw [hn]
  calc s.take (s.takeWhile p).length
      = (s.takeWhile p ++ s.dropWhile p).take (s.takeWhile p).length := by rw [h]
    _ = s.takeWhile p := List.take_left' rfl

theorem matchHere_metricKey (s : List Char) :
    matchHere metricKeyRe ⟨[], []⟩ s =
      if s.takeWhile (fun x => x != ':') = [] then none
      else matchHere metricKeyRest ⟨[], [s.takeWhile (fun x => x != ':')]⟩
        (s.dropWhile (fun x => x != ':')) := by
  have h1 : matchHere metricKeyRe ⟨[], []⟩ s =
      greedyPlus (fun x => x != ':')
        (fun t => matchHere (.gclose :: metricKeyRest) ⟨[s], []⟩ t) s := rfl
  rw [h1, greedyPlus_of_fail]
  · simp only [matchHere, List.nil_append, take_length_sub_dropWhile]
  · intro c cs hc
    have hne : ¬ c = ':' := by simpa using hc
    simp [matchHere, metricKeyRest, lit, hne]

theorem matchHere_metricKeyTail (st : ReState) (t : List Char) :
    matchHere metricKeyTail st t =
      if t.takeWhile (fun x => x != '/') = [] then none
      else some (⟨st.opens, st.caps ++ [t.takeWhile (fun x => x != '/')]⟩,
        t.dropWhile (fun x => x != '/')) := by
  have h1 : matchHere metricKeyTail st t =
      greedyPlus (fun x => x != '/')
        (fun u => matchHere [.gclose] ⟨t :: st.opens, st.caps⟩ u) t := rfl
  rw [h1, greedyPlus_of_isSome]
  · simp only [matchHere, take_length_sub_dropWhile]
  · intro u
    simp [matchHere]

theorem matchHere_metricKeyRest (st : ReState) (c0 c1 c2 c3 x c5 c6 c7 c8 y : Char)
    (t : List Char) :
    matchHere metricKeyRest st (c0 :: c1 :: c2 :: c3 :: x :: c5 :: c6 :: c7 :: c8 :: y :: t) =
      if c0 = ':' ∧ c1 = 'a' ∧ c2 = 'p' ∧ c3 = 'p' ∧ x ≠ '\n' ∧
          c5 = 'b' ∧ c6 = 's' ∧ c7 = 'k' ∧ c8 = 'y' ∧ y ≠ '\n' then
        matchHere metricKeyTail st t
      else none := by
  simp only [metricKeyRest, List.cons_append, List.nil_append, matchHere, lit, dot,
    beq_iff_eq, bne_iff_ne, ne_eq, ite_and]

theorem matchHere_metricKeyRest_short (st : ReState) (t : List Char) (h : t.length < 10) :
    matchHere metricKeyRest st t = none := by
  rcases t with _ | ⟨c0, _ | ⟨c1, _ | ⟨c2, _ | ⟨c3, _ | ⟨c4, _ | ⟨c5, _ | ⟨c6, _ | ⟨c7, _ |
    ⟨c8, _ | ⟨c9, t⟩⟩⟩⟩⟩⟩⟩⟩⟩⟩
  all_goals first
    | (simp only [List.length_cons] at h; omega)
    | simp [metricKeyRest, matchHere, lit, dot]

theorem reFind_metricKey (key : String) :
    (reFindStringSubmatch metricKeyRe key).map (fun m => (m.getD 1 "", m.getD 2 "")) =
      if keyMatches key = true then some (keyAction key, keyType key) else none := by
  unfold reFindStringSubmatch keyMatches keyType keyCollection keyAction
  rw [matchHere_metricKey]
  by_cases ha : key.data.takeWhile (fun x => x != ':') = []
  · simp [ha]
  · rw [if_neg ha]
    have hne : (String.mk (key.data.takeWhile (fun x => x != ':')) != "") = true := by
      simp only [bne_iff_ne, ne_eq]
      intro h
      exact ha (congrArg String.data h)
    rw [hne]
    generalize key.data.takeWhile (fun x => x != ':') = a
    generalize key.data.dropWhile (fun x => x != ':') = t1
    rcases t1 with _ | ⟨c0, _ | ⟨c1, _ | ⟨c2, _ | ⟨c3, _ | ⟨c4, _ | ⟨c5, _ | ⟨c6, _ | ⟨c7, _ |
      ⟨c8, _ | ⟨c9, _ | ⟨t0, t⟩⟩⟩⟩⟩⟩⟩⟩⟩⟩⟩
    all_goals first
      | (simp [matchHere_metricKeyRest_short]; done)
      | (rw [matchHere_metricKeyRest, matchHere_metricKeyTail]; simp; done)
      | (rw [matchHere_metricKeyRest, matchHere_metricKeyTail]
         simp only [and_assoc, List.takeWhile_cons, bne_iff_ne, ne_eq, ite_not, Bool.and_eq_true,
           beq_iff_eq, decide_eq_true_eq, Bool.true_and, List.take, List.drop,
           List.cons.injEq, and_true, ite_eq_left_iff, reduceCtorEq, imp_false, not_not]
         by_cases hc : c0 = ':' ∧ c1 = 'a' ∧ c2 = 'p' ∧ c3 = 'p' ∧ ¬c4 = '\n' ∧ c5 = 'b' ∧
             c6 = 's' ∧ c7 = 'k' ∧ c8 = 'y' ∧ ¬c9 = '\n'
         · by_cases ht : t0 = '/'
           · simp [hc, ht]
           · obtain ⟨h0, h1, h2, h3, h4, h5, h6, h7, h8, h9⟩ := hc
             simp [h0, h1, h2, h3, h4, h5, h6, h7, h8, h9, ht]
         · have hc2 : ¬ (c0 = ':' ∧ c1 = 'a' ∧ c2 = 'p' ∧ c3 = 'p' ∧ ¬c4 = '\n' ∧ c5 = 'b' ∧
               c6 = 's' ∧ c7 = 'k' ∧ c8 = 'y' ∧ ¬c9 = '\n' ∧ ¬t0 = '/') :=
             fun h => hc ⟨h.1, h.2.1, h.2.2.1, h.2.2.2.1, h.2.2.2.2.1, h.2.2.2.2.2.1,
               h.2.2.2.2.2.2.1, h.2.2.2.2.2.2.2.1, h.2.2.2.2.2.2.2.2.1, h.2.2.2.2.2.2.2.2.2.1⟩
           simp [hc, hc2])

theorem metricLine_eq (repo key : String) (n : Int) :
    metricLine repo key n =
      if keyMatches key = true then some (eventLine repo (keyAction key) (keyType key) n)
      else none := by
  have h := reFind_metricKey key
  unfold metricLine
  cases hr : reFindStringSubmatch metricKeyRe key with
  | none =>
    rw [hr] at h
    by_cases hk : keyMatches key = true
    · rw [if_pos hk] at h
      simp at h
    · rw [if_neg hk]
  | some m =>
    rw [hr] at h
    by_cases hk : keyMatches key = true
    · rw [if_pos hk] at h
      rw [if_pos hk]
      simp only [Option.map_some', Option.some.injEq, Prod.mk.injEq] at h
      simp only [h.1, h.2]
    · rw [if_neg hk] at h
      simp at h

theorem foldl_metricLine (repo : String) (order : List (String × Int)) :
    ∀ acc : String,
      order.foldl
        (fun m e =>
          match metricLine repo e.1 e.2 with
          | none => m
          | some line => m ++ line) acc =
      (order.filterMap (fun e => metricLine repo e.1 e.2)).foldl (fun m line => m ++ line)
        acc := by
  induction order with
  | nil => intro acc; rfl
  | cons e es ih =>
    intro acc
    cases hl : metricLine repo e.1 e.2 with
    | none => simp only [List.foldl_cons, List.filterMap_cons, hl, ih]
    | some line => simp only [List.foldl_cons, List.filterMap_cons, hl, ih]

theorem filterMap_keys {β γ : Type} (p : String → Bool) (g : String → γ)
    (l : List (String × β)) :
    l.filterMap (fun e => if p e.1 = true then some (g e.1) else none) =
      ((l.map Prod.fst).filter p).map g := by
  induction l with
  | nil => rfl
  | cons e es ih =>
    by_cases hp : p e.1 = true
    · simp [List.filterMap_cons, hp, ih]
    · simp [List.filterMap_cons, hp, ih]

/-- C8: the text of the metrics endpoint is the total line
broadsky_bridge_events_total{server="nil",repo="<repo>"} <total> followed by
lines that are, up to their order, exactly one line per key of the counts map
that matches the pattern ^([^:]+):app.bsky.([^/]+), and none for the other keys;
the line of a matching key reports as action the text before the first ":" of
the key, as type the text after the nine characters matched by app.bsky. up to
the first "/", and as value the count stored under the key. The key
create:app.bsky.feed.post with count n gives the line
broadsky_bridge_events{server="nil",repo="<repo>",action="create",type="feed.post"} n. -/
theorem metrics_exposition (repo : String) (stats : MetricsData)
    (order : List (String × Int)) (hwf : stats.counts.WF)
    (hperm : order.Perm stats.counts) :
    (∃ lines : List String,
      metricsBody repo stats order =
        lines.foldl (fun m line => m ++ line)
          ("broadsky_bridge_events_total\x7bserver=\"nil\",repo=\"" ++ repo ++ "\"\x7d " ++
            toString stats.total ++ "\n") ∧
      lines.Perm
        (((stats.counts.map Prod.fst).filter keyMatches).map (fun key =>
          "broadsky_bridge_events\x7bserver=\"nil\",repo=\"" ++ repo ++ "\",action=\"" ++
            keyAction key ++ "\",type=\"" ++ keyType key ++ "\"\x7d " ++
            toString (stats.counts.getD key 0) ++ "\n"))) ∧
    (∀ n : Int, metricLine repo "create:app.bsky.feed.post" n =
      some ("broadsky_bridge_events\x7bserver=\"nil\",repo=\"" ++ repo ++
        "\",action=\"create\",type=\"feed.post\"\x7d " ++ toString n ++ "\n")) ∧
    metricsHandler "/_metrics" repo stats order = (200, metricsBody repo stats order) := by
  refine ⟨⟨order.filterMap (fun e => metricLine repo e.1 e.2), ?_, ?_⟩, ?_, rfl⟩
  · exact foldl_metricLine repo order _
  · refine (List.Perm.filterMap _ hperm).trans ?_
    have h1 : stats.counts.filterMap (fun e => metricLine repo e.1 e.2) =
        stats.counts.filterMap (fun e =>
          if keyMatches e.1 = true then
            some (eventLine repo (keyAction e.1) (keyType e.1) (stats.counts.getD e.1 0))
          else none) := by
      apply List.filterMap_congr
      intro e he
      have hv : stats.counts.getD e.1 0 = e.2 := by
        unfold GoMap.getD
        rw [GoMap.get?_of_mem _ e.1 e.2 hwf he]
        rfl
      rw [metricLine_eq, hv]
    rw [h1, filterMap_keys keyMatches
      (fun key => eventLine repo (keyAction key) (keyType key) (stats.counts.getD key 0))]
    exact List.Perm.refl _
  · intro n
    rw [metricLine_eq, if_pos (by decide)]
    congr 1
    apply String.ext
    simp only [eventLine, String.data_append, List.append_assoc]
    rfl

theorem metrics_exposition_witness :
    GoMap.WF [("create:app.bsky.feed.post", (2 : Int)), ("delete:chat.bsky.convo", 1)] ∧
    metricsBody "wss://bsky.network" ⟨3, [("create:app.bsky.feed.post", 2),
        ("delete:chat.bsky.convo", 1)], []⟩
      [("delete:chat.bsky.convo", 1), ("create:app.bsky.feed.post", 2)] =
      "broadsky_bridge_events_total\x7bserver=\"nil\",repo=\"wss://bsky.network\"\x7d 3\n" ++
      "broadsky_bridge_events\x7bserver=\"nil\",repo=\"wss://bsky.network\",action=\"create\",type=\"feed.post\"\x7d 2\n" ∧
    ∃ lines : List String,
      metricsBody "wss://bsky.network" ⟨3, [("create:app.bsky.feed.post", 2),
          ("delete:chat.bsky.convo", 1)], []⟩
        [("delete:chat.bsky.convo", 1), ("create:app.bsky.feed.post", 2)] =
        lines.foldl (fun m line => m ++ line)
          ("broadsky_bridge_events_total\x7bserver=\"nil\",repo=\"" ++ "wss://bsky.network" ++
            "\"\x7d " ++ toString (3 : Int) ++ "\n") ∧
      lines.length = 1 :=
  have hwf : GoMap.WF [("create:app.bsky.feed.post", (2 : Int)), ("delete:chat.bsky.convo", 1)] := by
    unfold GoMap.WF
    decide
  have h := (metrics_exposition "wss://bsky.network"
    ⟨3, [("create:app.bsky.feed.post", 2), ("delete:chat.bsky.convo", 1)], []⟩
    [("delete:chat.bsky.convo", 1), ("create:app.bsky.feed.post", 2)] hwf
    (List.Perm.swap _ _ [])).1
  ⟨hwf, rfl, h.elim fun lines hl => ⟨lines, hl.1, by simpa using hl.2.length_eq⟩⟩

end Broadsky
